import Mathlib

/-!
# Verification of the minio_monitor aggregation and reporting pipeline

Shallow embedding of the core logic of the repository:

* `main.py`  — bucket/path aggregation, size formatting, CSV snapshot writing,
  quota evaluation over the live aggregation;
* `app.py`   — snapshot catalog (`get_metrics_files`, `list_files`) and the
  viewer fetch (`read_csv_from_minio`, `get_csv`);
* `manual_test/quota.py` — quota evaluation over a parsed snapshot.

Python machine-level details are modelled as follows: byte counts are `Nat`,
the float quantities `size_mb` / `size_gb` are exact rationals (every input
`n / 2^20` or `n / 2^30` with realistic `n` is exactly representable as a
Python float, and Python's `%.2f` formatting is round-half-even on that exact
value), strings are Lean `String`s manipulated through their character lists
(Python `str` operations used by the code — `split`, `in`, `startswith`,
`endswith`, lexicographic comparison — are all code-point-wise operations on
the character sequence), and exception control flow becomes explicit
`Except` / branching.
-/

namespace MinioMonitor

/-- One object returned by `s3.list_objects`: the fields `obj.object_name` and
`obj.size` used by `main.py`. -/
structure ObjectRecord where
  object_name : String
  size : Nat
deriving DecidableEq, Repr

/-- Python `key.split('/')` on the character list of an object key
(`main.py` lines 59 and 69).  `splitSlash [] = [[]]` matches
`"".split('/') == ['']`. -/
def splitSlash : List Char → List (List Char)
  | [] => [[]]
  | c :: cs =>
    if c = '/' then [] :: splitSlash cs
    else
      match splitSlash cs with
      | s :: ss => (c :: s) :: ss
      | [] => [[c]]

/-- The two-level aggregation key of an object key (`main.py` lines 59–63 and
69–73): `parts[0] + "/" + parts[1]` when the key has at least two segments,
otherwise `parts[0]` alone. -/
def twoLevelKey (name : String) : String :=
  match splitSlash name.data with
  | p0 :: p1 :: _ => String.mk (p0 ++ '/' :: p1)
  | [p0] => String.mk p0
  | [] => ""

/-- First listing pass (`main.py` lines 57–64): the set of distinct two-level
keys of the listed objects (`two_level_paths`).  The Python `set` has
arbitrary iteration order; only membership and distinctness matter downstream,
so it is modelled as a deduplicated list. -/
def discoveredKeys (pass1 : List ObjectRecord) : List String :=
  (pass1.map fun o => twoLevelKey o.object_name).dedup

/-- Python dict membership test and indexing (`k in path_sizes`,
`path_sizes[k]`), on the association-list model of the dict. -/
def lookupKey (k : String) : List (String × Nat) → Option Nat
  | [] => none
  | (a, v) :: t => if k = a then some v else lookupKey k t

/-- `path_sizes[k] += v` on the association-list model of the Python dict
(`main.py` line 76): add `v` to the value of every entry whose key is `k`
(dict keys are unique, so at most one entry matches). -/
def addToKey : List (String × Nat) → String → Nat → List (String × Nat)
  | [], _, _ => []
  | (a, b) :: t, k, v =>
    if a = k then (a, b + v) :: addToKey t k v else (a, b) :: addToKey t k v

/-- One step of the second listing pass (`main.py` lines 68–76): the object's
size is added only when its key is already present (`if two_level_path in
path_sizes`); otherwise the object is silently dropped. -/
def pathSizesStep (m : List (String × Nat)) (o : ObjectRecord) : List (String × Nat) :=
  if (lookupKey (twoLevelKey o.object_name) m).isSome then
    addToKey m (twoLevelKey o.object_name) o.size
  else m

/-- The two-pass aggregation (`main.py` lines 56–76): initialise every key
discovered by the first pass to `0`, then fold the second pass over
`pathSizesStep`.  The two passes are distinct arguments because the listing is
not assumed consistent between them. -/
def pathSizes (pass1 pass2 : List ObjectRecord) : List (String × Nat) :=
  pass2.foldl pathSizesStep ((discoveredKeys pass1).map fun k => (k, 0))

/-- Sum of the sizes of the objects of `objs` whose two-level key is `k`. -/
def sumKeyed (k : String) (objs : List ObjectRecord) : Nat :=
  ((objs.filter fun o => twoLevelKey o.object_name = k).map ObjectRecord.size).sum

/-- Round-half-even of a rational to an integer: the rounding applied by
Python's `%.2f` float formatting (after scaling by 100).  For the dyadic
rationals this code produces, the value is the exact float value and ties
(`fractional part = 1/2`) cannot occur, since an odd multiple of `1/200` is
never dyadic. -/
def roundHalfEven (q : ℚ) : ℤ :=
  if q - ⌊q⌋ < 1 / 2 then ⌊q⌋
  else if 1 / 2 < q - ⌊q⌋ then ⌊q⌋ + 1
  else if ⌊q⌋ % 2 = 0 then ⌊q⌋ else ⌊q⌋ + 1

/-- Two-digit rendering of the fractional part (`0 ≤ m < 100`). -/
def twoDigitString (m : ℤ) : String :=
  if m < 10 then "0" ++ toString m else toString m

/-- Python `f"{q:.2f}"` for a non-negative rational `q`. -/
def formatTwoDecimals (q : ℚ) : String :=
  toString (roundHalfEven (q * 100) / 100) ++ "." ++
    twoDigitString (roundHalfEven (q * 100) % 100)

/-- `format_size` (`main.py` lines 23–30): GB with two decimals when
`size_gb >= 1`, else MB with two decimals. -/
def format_size (size_bytes : Nat) : String :=
  if 1 ≤ (size_bytes : ℚ) / (1024 : ℚ) ^ 3 then
    formatTwoDecimals ((size_bytes : ℚ) / (1024 : ℚ) ^ 3) ++ " GB"
  else
    formatTwoDecimals ((size_bytes : ℚ) / (1024 : ℚ) ^ 2) ++ " MB"

/-- One row of the snapshot before serialization (`main.py` lines 84–114):
`path` plus raw and derived size fields.  `size_mb` / `size_gb` are kept as
exact rationals. -/
structure AggRow where
  path : String
  size_bytes : Nat
  size_mb : ℚ
  size_gb : ℚ
  size_human : String
deriving DecidableEq, Repr

/-- A bucket-total row as written by the snapshot writer
(`main.py` lines 46–50 and 103–110). -/
def bucketRow (b : String × Nat) : AggRow :=
  ⟨b.1, b.2, (b.2 : ℚ) / (1024 : ℚ) ^ 2, (b.2 : ℚ) / (1024 : ℚ) ^ 3, format_size b.2⟩

/-- A two-level path-total row (`main.py` lines 84–92):
`full_path = f"{bucket_name}/{path}"` with `bucket_name = "cdm-lake"`. -/
def pathRow (p : String × Nat) : AggRow :=
  ⟨"cdm-lake" ++ "/" ++ p.1, p.2, (p.2 : ℚ) / (1024 : ℚ) ^ 2,
    (p.2 : ℚ) / (1024 : ℚ) ^ 3, format_size p.2⟩

/-- Comparison used by `sorted(path_sizes.items())` (`main.py` line 84):
Python compares the key strings code-point-lexicographically (keys are
distinct, so the tuple's second component never decides). -/
def keyLe (p q : String × Nat) : Prop := p.1.data ≤ q.1.data

instance : DecidableRel keyLe := fun p q =>
  (inferInstance : Decidable (p.1.data ≤ q.1.data))

instance : IsTotal (String × Nat) keyLe := ⟨fun p q => le_total p.1.data q.1.data⟩

instance : IsTrans (String × Nat) keyLe := ⟨fun _ _ _ => le_trans⟩

/-- `sorted(path_sizes.items())` — a stable ascending sort by key. -/
def sortedItems (m : List (String × Nat)) : List (String × Nat) :=
  List.insertionSort keyLe m

/-- The path-total section of the snapshot (`main.py` lines 84–93). -/
def pathData (m : List (String × Nat)) : List AggRow :=
  (sortedItems m).map pathRow

/-- The full ordered row sequence of one snapshot (`main.py` lines 102–114):
bucket rows first, in listing order, then the path rows. -/
def snapshotRows (bucketData : List (String × Nat)) (m : List (String × Nat)) :
    List AggRow :=
  bucketData.map bucketRow ++ pathData m

/-- The CSV header fields (`main.py` line 97). -/
def csvFieldnames : List String :=
  ["path", "size_bytes", "size_mb", "size_gb", "size_human"]

/-- Python `'/' in path` for the single character `/`. -/
def hasSlash (s : String) : Bool := s.data.contains '/'

/-- Live quota scan (`main.py` lines 146–159): skip rows whose path has no
separator, keep rows with `size_gb > QUOTA_GB` (strict). -/
def over_quota_live (rows : List AggRow) (threshold : ℚ) : List AggRow :=
  rows.filter fun r => hasSlash r.path && decide (threshold < r.size_gb)

/-- One parsed snapshot row as consumed by `manual_test/quota.py`
(lines 48–57): the `path` string and `float(row['size_gb'])`. -/
structure CsvQuotaRow where
  path : String
  size_gb : ℚ
deriving DecidableEq, Repr

/-- Quota filter of `manual_test/quota.py` lines 47–63 (same logic as the
live scan): drop separator-free paths, keep `size_gb > threshold`. -/
def over_quota (rows : List CsvQuotaRow) (threshold : ℚ) : List CsvQuotaRow :=
  rows.filter fun r => hasSlash r.path && decide (threshold < r.size_gb)

/-- A reported quota violation: path, size and overage
(`overage = item['size_gb'] - QUOTA_GB`). -/
structure QuotaViolation where
  path : String
  size_gb : ℚ
  overage_gb : ℚ
deriving DecidableEq, Repr

/-- Comparison of `sorted(over_quota, key=lambda x: x['size_gb'],
reverse=True)`: stable descending by `size_gb`. -/
def sizeDesc (a b : CsvQuotaRow) : Prop := b.size_gb ≤ a.size_gb

instance : DecidableRel sizeDesc := fun a b =>
  (inferInstance : Decidable (b.size_gb ≤ a.size_gb))

instance : IsTotal CsvQuotaRow sizeDesc := ⟨fun a b => le_total b.size_gb a.size_gb⟩

instance : IsTrans CsvQuotaRow sizeDesc := ⟨fun _ _ _ h1 h2 => le_trans h2 h1⟩

/-- The reported violation list (`quota.py` lines 70–77 / `main.py`
lines 166–172): the collected violations sorted descending by `size_gb`,
each with its overage. -/
def quotaReport (rows : List CsvQuotaRow) (threshold : ℚ) : List QuotaViolation :=
  (List.insertionSort sizeDesc (over_quota rows threshold)).map
    fun r => ⟨r.path, r.size_gb, r.size_gb - threshold⟩

/-- One object as seen by the snapshot catalog (`app.py` lines 43–49):
`object_name`, `last_modified.isoformat()` and `size`. -/
structure CatalogObject where
  object_name : String
  last_modified : String
  size : Nat
deriving DecidableEq, Repr

/-- One catalog entry returned to the viewer (`app.py` lines 45–49). -/
structure CatalogEntry where
  name : String
  last_modified : String
  size : Nat
deriving DecidableEq, Repr

/-- Python `str.startswith` on character lists (the backend filter of
`list_objects(bucket, prefix=...)`). -/
def beginsWith : List Char → List Char → Bool
  | [], _ => true
  | _ :: _, [] => false
  | c :: p, d :: s => c = d && beginsWith p s

/-- Python `str.endswith` on character lists (`app.py` line 44). -/
def endsWithChars (p s : List Char) : Bool := beginsWith p.reverse s.reverse

/-- Comparison of `metrics_files.sort(key=lambda x: x['last_modified'],
reverse=True)` (`app.py` line 51): stable descending by the ISO timestamp
string. -/
def modifiedDesc (a b : CatalogEntry) : Prop :=
  b.last_modified.data ≤ a.last_modified.data

instance : DecidableRel modifiedDesc := fun a b =>
  (inferInstance : Decidable (b.last_modified.data ≤ a.last_modified.data))

instance : IsTotal CatalogEntry modifiedDesc :=
  ⟨fun a b => le_total b.last_modified.data a.last_modified.data⟩

instance : IsTrans CatalogEntry modifiedDesc := ⟨fun _ _ _ h1 h2 => le_trans h2 h1⟩

/-- `get_metrics_files` (`app.py` lines 36–52): keep the objects under the
`metrics/` prefix whose names end in `.csv`, sort by `last_modified`
descending, truncate to `limit`. -/
def get_metrics_files (listing : List CatalogObject) (limit : Nat) : List CatalogEntry :=
  (List.insertionSort modifiedDesc
      ((listing.filter fun o =>
          beginsWith "metrics/".data o.object_name.data &&
            endsWithChars ".csv".data o.object_name.data).map
        fun o => ⟨o.object_name, o.last_modified, o.size⟩)).take limit

/-- An HTTP error response raised through FastAPI's `HTTPException`. -/
structure HTTPError where
  status : Nat
  detail : String
deriving DecidableEq, Repr

/-- `/api/files` (`app.py` lines 87–90): FastAPI validates
`limit: int = Query(5, ge=1, le=20)` (422 outside the bounds), then returns
`get_metrics_files(limit)`. -/
def list_files (listing : List CatalogObject) (limit : Nat) :
    Except HTTPError (List CatalogEntry) :=
  if 1 ≤ limit ∧ limit ≤ 20 then Except.ok (get_metrics_files listing limit)
  else Except.error ⟨422, "limit out of range"⟩

/-- Outcome trace of the snapshot-persistence phase of one run. -/
structure PersistTrace where
  localWritten : Bool
  durableAttempted : Bool
  durableWritten : Bool
  completed : Bool
deriving DecidableEq, Repr

/-- `main.py` lines 120–141 with Python exception flow made explicit: the
local `open(csv_filename, 'w')` / `f.write` runs first with **no** handler
(an error propagates and aborts the whole script), then `s3.put_object`
(again unhandled, an error aborts).  The run reaches its remaining steps and
counts as complete only when both writes succeeded. -/
def persistRun (localOk durableOk : Bool) : PersistTrace :=
  if localOk then
    if durableOk then ⟨true, true, true, true⟩
    else ⟨true, true, false, false⟩
  else ⟨false, false, false, false⟩

/-- One parsed snapshot row: the five persisted fields, all as strings, as
`csv.DictReader` returns them (`app.py` lines 55–66). -/
structure Row where
  path : String
  size_bytes : String
  size_mb : String
  size_gb : String
  size_human : String
deriving DecidableEq, Repr

/-- `/api/csv` (`app.py` lines 75–84): empty `file` gives a 400; any
exception `e` from `read_csv_from_minio` (missing object, backend failure,
decode error) is caught and re-raised as `HTTPException(500, str(e))`. -/
def get_csv (file : String) (fetchResult : Except String (List Row)) :
    Except HTTPError (List Row) :=
  if file = "" then Except.error ⟨400, "No file specified"⟩
  else
    match fetchResult with
    | Except.ok rows => Except.ok rows
    | Except.error e => Except.error ⟨500, e⟩

/-- The characters that force quoting under `csv.QUOTE_MINIMAL`: the
delimiter, the quote char and the line-terminator characters. -/
def specialChar (c : Char) : Bool := c = ',' || c = '"' || c = '\r' || c = '\n'

/-- Does a field need quoting (`csv` module, QUOTE_MINIMAL dialect)? -/
def needsQuoting (f : List Char) : Bool := f.any specialChar

/-- Double every quote character (csv `doublequote=True`). -/
def escapeQuotes : List Char → List Char
  | [] => []
  | c :: cs => if c = '"' then '"' :: '"' :: escapeQuotes cs else c :: escapeQuotes cs

/-- Serialize one field, quoting it when needed. -/
def quoteField (f : List Char) : List Char :=
  if needsQuoting f then '"' :: (escapeQuotes f ++ ['"']) else f

/-- Serialize one record: comma-separated fields and the `\r\n` terminator
(the csv module's default `lineterminator`). -/
def serializeRecord : List (List Char) → List Char
  | [] => ['\r', '\n']
  | [f] => quoteField f ++ ['\r', '\n']
  | f :: rest => quoteField f ++ ',' :: serializeRecord rest

/-- Serialize a sequence of records. -/
def serializeRecords : List (List (List Char)) → List Char
  | [] => []
  | r :: rs => serializeRecord r ++ serializeRecords rs

/-- The five serialized fields of a row, in `csvFieldnames` order
(`main.py` lines 96–114). -/
def rowFields (r : Row) : List (List Char) :=
  [r.path.data, r.size_bytes.data, r.size_mb.data, r.size_gb.data, r.size_human.data]

/-- `csv.DictWriter`: header row then one record per row
(`main.py` lines 96–114). -/
def writeCsv (rows : List Row) : String :=
  String.mk (serializeRecords ((csvFieldnames.map String.data) :: rows.map rowFields))

/-- Parse the inside of a quoted field; `acc` holds the consumed characters
in reverse.  A doubled quote is an escaped quote; a single quote closes the
field. -/
def parseQuoted (acc : List Char) : List Char → List Char × List Char
  | [] => (acc.reverse, [])
  | c :: rest =>
    if c = '"' then
      match rest with
      | c2 :: rest2 =>
        if c2 = '"' then parseQuoted ('"' :: acc) rest2 else (acc.reverse, rest)
      | [] => (acc.reverse, [])
    else parseQuoted (c :: acc) rest

/-- Parse an unquoted field: everything up to a delimiter or line end. -/
def parseUnquoted (acc : List Char) : List Char → List Char × List Char
  | [] => (acc.reverse, [])
  | c :: rest =>
    if c = ',' || c = '\r' || c = '\n' then (acc.reverse, c :: rest)
    else parseUnquoted (c :: acc) rest

/-- Parse one field: quoted when it starts with a quote char. -/
def parseFieldFrom (cs : List Char) : List Char × List Char :=
  match cs with
  | [] => ([], [])
  | c :: rest => if c = '"' then parseQuoted [] rest else parseUnquoted [] cs

/-- Parse one record: fields separated by commas, ended by a line terminator
(`\r\n`, bare `\n`, bare `\r`) or end of input.  `fuel` bounds the number of
fields and is in practice the input length. -/
def parseRecordAux : Nat → List Char → List (List Char) × List Char
  | 0, cs => ([], cs)
  | fuel + 1, cs =>
    match parseFieldFrom cs with
    | (f, rest) =>
      match rest with
      | [] => ([f], [])
      | c :: rest2 =>
        if c = ',' then
          match parseRecordAux fuel rest2 with
          | (fs, rest3) => (f :: fs, rest3)
        else if c = '\r' then
          match rest2 with
          | c2 :: rest3 => if c2 = '\n' then ([f], rest3) else ([f], rest2)
          | [] => ([f], [])
        else ([f], rest2)

/-- Parse a sequence of records until the input is exhausted. -/
def parseRecords : Nat → List Char → List (List (List Char))
  | 0, _ => []
  | fuel + 1, cs =>
    match cs with
    | [] => []
    | _ =>
      match parseRecordAux (cs.length + 1) cs with
      | (r, rest) => r :: parseRecords fuel rest

/-- Rebuild a `Row` from a five-field record (`csv.DictReader` pairing the
values with the header fields). -/
def rowOfFields : List (List Char) → Option Row
  | [p, b, m, g, h] =>
    some ⟨String.mk p, String.mk b, String.mk m, String.mk g, String.mk h⟩
  | _ => none

/-- `read_csv_from_minio` (`app.py` lines 55–66): parse the tabular content,
drop the header record, map every data record back to a row. -/
def fetchRows (content : String) : Option (List Row) :=
  match parseRecords (content.data.length + 1) content.data with
  | [] => some []
  | _ :: rs => rs.mapM rowOfFields

theorem sumKeyed_nil (k : String) : sumKeyed k [] = 0 := rfl

theorem sumKeyed_cons (k : String) (o : ObjectRecord) (t : List ObjectRecord) :
    sumKeyed k (o :: t) =
      (if twoLevelKey o.object_name = k then o.size else 0) + sumKeyed k t := by
  simp only [sumKeyed, List.filter_cons, decide_eq_true_eq]
  split_ifs with h <;> simp

theorem lookup_addToKey (m : List (String × Nat)) (k q : String) (v : Nat) :
    lookupKey k (addToKey m q v) =
      if k = q then (lookupKey k m).map (· + v) else lookupKey k m := by
  induction m with
  | nil => simp [addToKey, lookupKey]
  | cons p t ih =>
    obtain ⟨a, b⟩ := p
    by_cases haq : a = q
    · subst haq
      rw [show addToKey ((a, b) :: t) a v = (a, b + v) :: addToKey t a v from by
        rw [addToKey, if_pos rfl]]
      by_cases hka : k = a
      · subst hka
        simp [lookupKey]
      · simp [lookupKey, hka, ih]
    · rw [show addToKey ((a, b) :: t) q v = (a, b) :: addToKey t q v from by
        rw [addToKey, if_neg haq]]
      by_cases hka : k = a
      · subst hka
        have hkq : ¬(k = q) := haq
        simp [lookupKey, hkq]
      · simp [lookupKey, hka, ih]

theorem lookup_isSome_iff_mem_keys (m : List (String × Nat)) (k : String) :
    (lookupKey k m).isSome = true ↔ k ∈ m.map Prod.fst := by
  induction m with
  | nil => simp [lookupKey]
  | cons p t ih =>
    obtain ⟨a, b⟩ := p
    by_cases hka : k = a <;> simp [lookupKey, hka, ih]

theorem lookup_foldl_pathSizesStep
    (pass2 : List ObjectRecord) (m : List (String × Nat)) (k : String) :
    lookupKey k (pass2.foldl pathSizesStep m) =
      (lookupKey k m).map (· + sumKeyed k pass2) := by
  induction pass2 generalizing m with
  | nil =>
    cases h : lookupKey k m <;> simp [sumKeyed_nil, h]
  | cons o t ih =>
    rw [List.foldl_cons, ih, sumKeyed_cons]
    unfold pathSizesStep
    by_cases hs : (lookupKey (twoLevelKey o.object_name) m).isSome = true
    · rw [if_pos hs, lookup_addToKey]
      by_cases hk : k = twoLevelKey o.object_name
      · rw [if_pos hk, if_pos hk.symm]
        cases h : lookupKey k m <;> simp [h, Nat.add_assoc]
      · rw [if_neg hk, if_neg (fun h => hk h.symm)]
        simp
    · rw [if_neg hs]
      by_cases hk : k = twoLevelKey o.object_name
      · have hnone : lookupKey k m = none := by
          rw [hk]
          cases h : lookupKey (twoLevelKey o.object_name) m with
          | none => rfl
          | some v => rw [h] at hs; simp at hs
        simp [hnone]
      · rw [if_neg (fun h => hk h.symm)]
        simp

theorem lookup_init_zero (ks : List String) (k : String) :
    lookupKey k (ks.map fun k0 => (k0, (0 : Nat))) = if k ∈ ks then some 0 else none := by
  induction ks with
  | nil => simp [lookupKey]
  | cons a t ih =>
    by_cases hka : k = a <;> simp [lookupKey, hka, ih]

theorem lookup_pathSizes (pass1 pass2 : List ObjectRecord) (k : String) :
    lookupKey k (pathSizes pass1 pass2) =
      if k ∈ discoveredKeys pass1 then some (sumKeyed k pass2) else none := by
  unfold pathSizes
  rw [lookup_foldl_pathSizesStep, lookup_init_zero]
  split_ifs <;> simp

theorem keys_addToKey (m : List (String × Nat)) (q : String) (v : Nat) :
    (addToKey m q v).map Prod.fst = m.map Prod.fst := by
  induction m with
  | nil => rfl
  | cons p t ih =>
    obtain ⟨a, b⟩ := p
    by_cases haq : a = q <;> simp [addToKey, haq, ih]

theorem addToKey_of_not_mem (t : List (String × Nat)) (q : String) (v : Nat)
    (h : q ∉ t.map Prod.fst) : addToKey t q v = t := by
  induction t with
  | nil => rfl
  | cons p r ih =>
    obtain ⟨a, b⟩ := p
    simp only [List.map_cons, List.mem_cons] at h
    push_neg at h
    rw [addToKey, if_neg fun hh => h.1 hh.symm, ih h.2]

theorem keys_pathSizesStep (m : List (String × Nat)) (o : ObjectRecord) :
    (pathSizesStep m o).map Prod.fst = m.map Prod.fst := by
  unfold pathSizesStep
  split_ifs <;> simp [keys_addToKey]

theorem keys_foldl_pathSizesStep (pass2 : List ObjectRecord) (m : List (String × Nat)) :
    ((pass2.foldl pathSizesStep m).map Prod.fst) = m.map Prod.fst := by
  induction pass2 generalizing m with
  | nil => rfl
  | cons o t ih => rw [List.foldl_cons, ih, keys_pathSizesStep]

theorem keys_pathSizes (pass1 pass2 : List ObjectRecord) :
    (pathSizes pass1 pass2).map Prod.fst = discoveredKeys pass1 := by
  unfold pathSizes
  rw [keys_foldl_pathSizesStep, List.map_map]
  exact List.map_id _

theorem valuesSum_addToKey (m : List (String × Nat)) (q : String) (v : Nat)
    (hnd : (m.map Prod.fst).Nodup) (hq : q ∈ m.map Prod.fst) :
    ((addToKey m q v).map Prod.snd).sum = (m.map Prod.snd).sum + v := by
  induction m with
  | nil => simp at hq
  | cons p t ih =>
    obtain ⟨a, b⟩ := p
    simp only [List.map_cons, List.nodup_cons] at hnd
    simp only [List.map_cons, List.mem_cons] at hq
    by_cases haq : a = q
    · subst haq
      rw [show addToKey ((a, b) :: t) a v = (a, b + v) :: addToKey t a v from by
        rw [addToKey, if_pos rfl]]
      rw [addToKey_of_not_mem t a v hnd.1]
      simp only [List.map_cons, List.sum_cons]
      omega
    · have hqt : q ∈ t.map Prod.fst := by
        rcases hq with h | h
        · exact absurd h.symm haq
        · exact h
      rw [show addToKey ((a, b) :: t) q v = (a, b) :: addToKey t q v from by
        rw [addToKey, if_neg haq]]
      simp only [List.map_cons, List.sum_cons]
      rw [ih hnd.2 hqt]
      omega

theorem valuesSum_foldl_pathSizesStep
    (pass2 : List ObjectRecord) (m : List (String × Nat))
    (hnd : (m.map Prod.fst).Nodup) :
    ((pass2.foldl pathSizesStep m).map Prod.snd).sum =
      (m.map Prod.snd).sum +
        ((pass2.filter fun o => twoLevelKey o.object_name ∈ m.map Prod.fst).map
          ObjectRecord.size).sum := by
  induction pass2 generalizing m with
  | nil => simp
  | cons o t ih =>
    rw [List.foldl_cons]
    have hkeys := keys_pathSizesStep m o
    have hnd2 : ((pathSizesStep m o).map Prod.fst).Nodup := by rw [hkeys]; exact hnd
    rw [ih _ hnd2, hkeys]
    by_cases hmem : twoLevelKey o.object_name ∈ m.map Prod.fst
    · have hsome : (lookupKey (twoLevelKey o.object_name) m).isSome = true :=
        (lookup_isSome_iff_mem_keys m _).mpr hmem
      rw [List.filter_cons_of_pos (by simpa using hmem)]
      unfold pathSizesStep
      rw [if_pos hsome, valuesSum_addToKey m _ _ hnd hmem]
      simp [Nat.add_assoc, Nat.add_comm o.size]
    · have hsome : ¬((lookupKey (twoLevelKey o.object_name) m).isSome = true) := by
        rw [lookup_isSome_iff_mem_keys]; exact hmem
      rw [List.filter_cons_of_neg (by simpa using hmem)]
      unfold pathSizesStep
      rw [if_neg hsome]

/-- C1. Two-level aggregation is a two-pass protocol: the first pass
enumerates the distinct two-level keys; the second pass adds an object's size
only to a key discovered in the first pass.  Each discovered key's aggregate
equals the sum of the sizes of the second-pass objects mapping to it, keys
outside the discovered set are absent, and the total of all aggregates equals
the total size of exactly those second-pass objects whose key lies in the
discovered set. -/
theorem c1_two_pass_aggregation (pass1 pass2 : List ObjectRecord) :
    (∀ k, lookupKey k (pathSizes pass1 pass2) =
        if k ∈ discoveredKeys pass1 then some (sumKeyed k pass2) else none)
    ∧ ((pathSizes pass1 pass2).map Prod.snd).sum =
        ((pass2.filter fun o => twoLevelKey o.object_name ∈ discoveredKeys pass1).map
          ObjectRecord.size).sum
    ∧ (pathSizes pass1 pass2).map Prod.fst = discoveredKeys pass1 := by
  refine ⟨fun k => lookup_pathSizes pass1 pass2 k, ?_, keys_pathSizes pass1 pass2⟩
  have hkeys : ((discoveredKeys pass1).map fun k => (k, (0 : Nat))).map Prod.fst
      = discoveredKeys pass1 := by
    rw [List.map_map]
    exact List.map_id _
  have hnd : (((discoveredKeys pass1).map fun k => (k, (0 : Nat))).map Prod.fst).Nodup := by
    rw [hkeys]
    exact List.nodup_dedup _
  unfold pathSizes
  rw [valuesSum_foldl_pathSizesStep pass2 _ hnd, hkeys]
  have hzero : ((((discoveredKeys pass1).map fun k => (k, (0 : Nat)))).map Prod.snd).sum = 0 := by
    rw [List.map_map]
    induction discoveredKeys pass1 with
    | nil => rfl
    | cons a t ih => simpa using ih
  rw [hzero, Nat.zero_add]

theorem mem_of_lookupKey_eq_some (m : List (String × Nat)) (k : String) (v : Nat)
    (h : lookupKey k m = some v) : (k, v) ∈ m := by
  induction m with
  | nil => simp [lookupKey] at h
  | cons p t ih =>
    obtain ⟨a, b⟩ := p
    by_cases hka : k = a
    · subst hka
      have hb : b = v := by simpa [lookupKey] using h
      subst hb
      exact List.mem_cons_self _ _
    · simp only [lookupKey, if_neg hka] at h
      exact List.mem_cons_of_mem _ (ih h)

theorem hasSlash_pathRow (p : String × Nat) : hasSlash (pathRow p).path = true := by
  have hmem : ('/' : Char) ∈ ("cdm-lake" ++ "/" ++ p.1).data := by
    rw [String.data_append]
    exact List.mem_append_left _ (by decide)
  simp [hasSlash, pathRow, hmem]

/-- C9. Every two-level path-total row has path `"cdm-lake/" ++ key`, so
it always contains a separator; consequently the live quota check's
no-separator exclusion never removes a path-total row, and aggregates of
single-segment (bucket-root) keys are subject to quota evaluation like any
other path row. -/
theorem c9_path_rows_keep_separator (m : List (String × Nat)) (t : ℚ) :
    ((pathData m).all fun r => hasSlash r.path) = true
    ∧ over_quota_live (pathData m) t =
        (pathData m).filter fun r => decide (t < r.size_gb) := by
  have hall : ∀ r ∈ pathData m, hasSlash r.path = true := by
    intro r hr
    obtain ⟨p, _, rfl⟩ := List.mem_map.mp hr
    exact hasSlash_pathRow p
  refine ⟨List.all_eq_true.mpr hall, ?_⟩
  unfold over_quota_live
  refine List.filter_congr fun r hr => ?_
  rw [hall r hr, Bool.true_and]

/-- C10. Every key discovered in the first pass appears in the aggregation
output initialized to 0: a key matched by no second-pass object still has
aggregate value 0 rather than being omitted, and still yields a snapshot path
row with `size_bytes = 0`. -/
theorem c10_discovered_key_still_present (pass1 pass2 : List ObjectRecord) (k : String)
    (hk : k ∈ discoveredKeys pass1)
    (hnone : ∀ o ∈ pass2, twoLevelKey o.object_name ≠ k) :
    lookupKey k (pathSizes pass1 pass2) = some 0
    ∧ ∃ r ∈ pathData (pathSizes pass1 pass2),
        r.path = "cdm-lake" ++ "/" ++ k ∧ r.size_bytes = 0 := by
  have hfilter : (pass2.filter fun o => twoLevelKey o.object_name = k) = [] := by
    rw [List.filter_eq_nil_iff]
    intro o ho
    simpa using hnone o ho
  have hsum : sumKeyed k pass2 = 0 := by simp [sumKeyed, hfilter]
  have hlook : lookupKey k (pathSizes pass1 pass2) = some 0 := by
    rw [lookup_pathSizes, if_pos hk, hsum]
  refine ⟨hlook, pathRow (k, 0), ?_, rfl, rfl⟩
  have hmem : (k, 0) ∈ pathSizes pass1 pass2 :=
    mem_of_lookupKey_eq_some _ _ _ hlook
  exact List.mem_map_of_mem pathRow
    (((List.perm_insertionSort keyLe _).mem_iff).mpr hmem)

/-- C10 witness. A concrete instance: the key `alpha/beta` is discovered
in pass one, matched by no object of pass two, and still carried with
aggregate 0. -/
theorem c10_witness :
    lookupKey "alpha/beta"
        (pathSizes [⟨"alpha/beta/data.bin", 5⟩] [⟨"gamma/delta", 3⟩]) = some 0
    ∧ ∃ r ∈ pathData (pathSizes [⟨"alpha/beta/data.bin", 5⟩] [⟨"gamma/delta", 3⟩]),
        r.path = "cdm-lake" ++ "/" ++ "alpha/beta" ∧ r.size_bytes = 0 :=
  c10_discovered_key_still_present _ _ _ (by decide) (by decide)

/-- C6 counterexample. The claim says a failure of the local-file write is
non-fatal and does not prevent the durable write.  In the code the local
write runs first with no exception handler, so on its failure the durable
write is never attempted and the run does not complete. -/
theorem c6_counterexample :
    (persistRun false true).durableAttempted = false
    ∧ (persistRun false true).durableWritten = false
    ∧ (persistRun false true).completed = false :=
  ⟨rfl, rfl, rfl⟩

/-- C6 (amended). The durable backend write must succeed for the run to
count as complete; but a failure of the local-file write is fatal rather than
non-fatal: it aborts the run before the durable write is attempted. -/
theorem c6_durable_write_required (localOk durableOk : Bool) :
    (persistRun localOk durableOk).completed = (localOk && durableOk)
    ∧ (persistRun localOk durableOk).durableAttempted = localOk
    ∧ (persistRun localOk durableOk).durableWritten = (localOk && durableOk) := by
  cases localOk <;> cases durableOk <;> exact ⟨rfl, rfl, rfl⟩

/-- C7 counterexample. The claim says a missing or unparsable snapshot
surfaces as a "not found" (404) or "bad request" (400) style response; the
handler actually catches the exception and raises status 500. -/
theorem c7_counterexample :
    get_csv "metrics/missing.csv" (Except.error "NoSuchKey") =
      Except.error ⟨500, "NoSuchKey"⟩
    ∧ (500 : Nat) ≠ 404 ∧ (500 : Nat) ≠ 400 :=
  ⟨rfl, by decide, by decide⟩

/-- C7 (amended). Every failing viewer fetch surfaces to the caller as a
structured HTTP error response — status 500 carrying the exception detail,
or status 400 when the file parameter is empty — never as a process crash:
`get_csv` maps every failure to `Except.error`. -/
theorem c7_fetch_errors_are_structured (file : String) (e : String) :
    get_csv file (Except.error e) =
      if file = "" then Except.error ⟨400, "No file specified"⟩
      else Except.error ⟨500, e⟩ := by
  unfold get_csv
  split_ifs <;> rfl

theorem charlist_append_lt_iff (p x y : List Char) : p ++ x < p ++ y ↔ x < y := by
  induction p with
  | nil => exact Iff.rfl
  | cons c t ih =>
    show (c :: (t ++ x)) < (c :: (t ++ y)) ↔ x < y
    rw [show ((c :: (t ++ x)) < (c :: (t ++ y))) ↔
        List.Lex (· < ·) (c :: (t ++ x)) (c :: (t ++ y)) from Iff.rfl,
      List.Lex.cons_iff]
    exact ih

theorem charlist_append_le_iff (p x y : List Char) : p ++ x ≤ p ++ y ↔ x ≤ y := by
  rw [← not_lt, ← not_lt, charlist_append_lt_iff]

theorem string_append_le_iff (p a b : String) : p ++ a ≤ p ++ b ↔ a ≤ b := by
  rw [String.le_iff_toList_le, String.le_iff_toList_le]
  show p.data ++ a.data ≤ p.data ++ b.data ↔ a.data ≤ b.data
  exact charlist_append_le_iff _ _ _

/-- C5. The snapshot written by one run is one ordered row sequence with
header fields `path, size_bytes, size_mb, size_gb, size_human`: all
bucket-total rows first, in backend listing order, followed by all two-level
path-total rows sorted lexicographically by path. -/
theorem c5_snapshot_row_order (bucketData m : List (String × Nat)) :
    csvFieldnames = ["path", "size_bytes", "size_mb", "size_gb", "size_human"]
    ∧ (snapshotRows bucketData m).map AggRow.path =
        bucketData.map Prod.fst ++ ((sortedItems m).map fun p => "cdm-lake" ++ "/" ++ p.1)
    ∧ List.Pairwise (fun a b : AggRow => a.path ≤ b.path) (pathData m)
    ∧ (sortedItems m).Perm m := by
  refine ⟨rfl, ?_, ?_, List.perm_insertionSort keyLe m⟩
  · rw [snapshotRows, pathData, List.map_append, List.map_map, List.map_map]
    rfl
  · rw [pathData, List.pairwise_map]
    have hs : (sortedItems m).Pairwise keyLe :=
      List.sorted_insertionSort keyLe m
    refine hs.imp fun {p q} hpq => ?_
    show ("cdm-lake" ++ "/") ++ p.1 ≤ ("cdm-lake" ++ "/") ++ q.1
    rw [string_append_le_iff]
    rw [String.le_iff_toList_le]
    exact hpq

/-- C2. Quota evaluation excludes every row whose path has no separator,
reports a row exactly when its `size_gb` strictly exceeds the threshold,
computes the overage as `size_gb - threshold`, orders the report descending
by `size_gb`, and on the three given rows with threshold 250 yields exactly
one violation, `cdm-lake/a/b` with overage 50. -/
theorem c2_quota_evaluation (rows : List CsvQuotaRow) (threshold : ℚ) :
    (∀ v : QuotaViolation, v ∈ quotaReport rows threshold ↔
      (⟨v.path, v.size_gb⟩ : CsvQuotaRow) ∈ rows ∧ hasSlash v.path = true
        ∧ threshold < v.size_gb ∧ v.overage_gb = v.size_gb - threshold)
    ∧ List.Pairwise (fun a b : QuotaViolation => b.size_gb ≤ a.size_gb)
        (quotaReport rows threshold)
    ∧ quotaReport
        [⟨"cdm-lake/a/b", 300⟩, ⟨"cdm-lake", 500⟩, ⟨"cdm-lake/c/d", 100⟩] 250 =
        [⟨"cdm-lake/a/b", 300, 50⟩] := by
  refine ⟨?_, ?_, ?_⟩
  · intro v
    constructor
    · intro hv
      obtain ⟨r, hr, rfl⟩ := List.mem_map.mp hv
      have hr2 : r ∈ over_quota rows threshold :=
        (List.perm_insertionSort sizeDesc _).mem_iff.mp hr
      obtain ⟨hrows, hcond⟩ := List.mem_filter.mp hr2
      rw [Bool.and_eq_true, decide_eq_true_eq] at hcond
      exact ⟨hrows, hcond.1, hcond.2, rfl⟩
    · rintro ⟨hrows, hs, hlt, hov⟩
      refine List.mem_map.mpr ⟨⟨v.path, v.size_gb⟩, ?_, ?_⟩
      · refine (List.perm_insertionSort sizeDesc _).mem_iff.mpr
          (List.mem_filter.mpr ⟨hrows, ?_⟩)
        rw [Bool.and_eq_true, decide_eq_true_eq]
        exact ⟨hs, hlt⟩
      · cases v
        simp only at hov
        simp [hov]
  · rw [quotaReport, List.pairwise_map]
    exact List.sorted_insertionSort sizeDesc _
  · have hs1 : hasSlash "cdm-lake/a/b" = true := rfl
    have hs2 : hasSlash "cdm-lake" = false := rfl
    have hs3 : hasSlash "cdm-lake/c/d" = true := rfl
    have hq1 : (250 : ℚ) < 300 := by norm_num
    have hq3 : ¬((250 : ℚ) < 100) := by norm_num
    rw [quotaReport, over_quota]
    rw [List.filter_cons_of_pos (by rw [hs1, Bool.true_and, decide_eq_true_eq]; exact hq1)]
    rw [List.filter_cons_of_neg (by rw [hs2, Bool.false_and]; exact Bool.false_ne_true)]
    rw [List.filter_cons_of_neg (by
      rw [hs3, Bool.true_and, decide_eq_true_eq]; exact hq3)]
    rw [List.filter_nil]
    rw [show List.insertionSort sizeDesc [(⟨"cdm-lake/a/b", 300⟩ : CsvQuotaRow)] =
      [⟨"cdm-lake/a/b", 300⟩] from rfl]
    rw [List.map_cons, List.map_nil]
    have : (300 : ℚ) - 250 = 50 := by norm_num
    rw [this]

/-- C2 witness. The universally quantified membership characterisation at
a concrete instance. -/
theorem c2_witness :
    (⟨"cdm-lake/a/b", 300, 50⟩ : QuotaViolation) ∈
      quotaReport [⟨"cdm-lake/a/b", 300⟩, ⟨"cdm-lake", 500⟩, ⟨"cdm-lake/c/d", 100⟩] 250 := by
  refine ((c2_quota_evaluation
    [⟨"cdm-lake/a/b", 300⟩, ⟨"cdm-lake", 500⟩, ⟨"cdm-lake/c/d", 100⟩] 250).1
      ⟨"cdm-lake/a/b", 300, 50⟩).mpr ⟨?_, rfl, by norm_num, by norm_num⟩
  exact List.mem_cons_self _ _

theorem roundHalfEven_eq_of_lt (q : ℚ) (n : ℤ) (hf : ⌊q⌋ = n) (hlt : q - n < 1 / 2) :
    roundHalfEven q = n := by
  unfold roundHalfEven
  rw [hf, if_pos hlt]

theorem formatTwoDecimals_eq (q : ℚ) (n : ℤ) (hf : ⌊q * 100⌋ = n)
    (hlt : q * 100 - n < 1 / 2) :
    formatTwoDecimals q = toString (n / 100) ++ "." ++ twoDigitString (n % 100) := by
  unfold formatTwoDecimals
  rw [roundHalfEven_eq_of_lt _ _ hf hlt]

theorem format_size_1572864000 : format_size 1572864000 = "1.46 GB" := by
  unfold format_size
  rw [if_pos (by norm_num)]
  have hq : ((1572864000 : Nat) : ℚ) / (1024 : ℚ) ^ 3 = 375 / 256 := by norm_num
  rw [hq, formatTwoDecimals_eq (375 / 256) 146 (by norm_num) (by norm_num)]
  rfl

theorem format_size_10485760 : format_size 10485760 = "10.00 MB" := by
  unfold format_size
  rw [if_neg (by norm_num)]
  have hq : ((10485760 : Nat) : ℚ) / (1024 : ℚ) ^ 2 = 10 := by norm_num
  rw [hq, formatTwoDecimals_eq 10 1000 (by norm_num) (by norm_num)]
  rfl

theorem format_size_1073741824 : format_size 1073741824 = "1.00 GB" := by
  unfold format_size
  rw [if_pos (by norm_num)]
  have hq : ((1073741824 : Nat) : ℚ) / (1024 : ℚ) ^ 3 = 1 := by norm_num
  rw [hq, formatTwoDecimals_eq 1 100 (by norm_num) (by norm_num)]
  rfl

/-- C3 counterexample. The claim maps 1572864000 bytes to `"1.50 GB"`;
the code divides by `1024 ** 3`, giving `1572864000 / 2^30 = 1.46484375`,
which `%.2f` renders as `"1.46"`. -/
theorem c3_counterexample :
    format_size 1572864000 = "1.46 GB" ∧ format_size 1572864000 ≠ "1.50 GB" := by
  refine ⟨format_size_1572864000, ?_⟩
  rw [format_size_1572864000]
  decide

/-- C3 (amended). For every byte count, the formatter returns the size in
GB with two decimals when the size is at least 1 GB (`1073741824` bytes) and
otherwise in MB with two decimals; it maps 1572864000 bytes to `"1.46 GB"`
(not `"1.50 GB"`), 10485760 bytes to `"10.00 MB"`, and exactly 1073741824
bytes to `"1.00 GB"`. -/
theorem c3_format_size_units (n : Nat) :
    format_size n =
      (if (1073741824 : Nat) ≤ n then
        formatTwoDecimals ((n : ℚ) / (1024 : ℚ) ^ 3) ++ " GB"
      else formatTwoDecimals ((n : ℚ) / (1024 : ℚ) ^ 2) ++ " MB")
    ∧ format_size 1572864000 = "1.46 GB"
    ∧ format_size 10485760 = "10.00 MB"
    ∧ format_size 1073741824 = "1.00 GB" := by
  refine ⟨?_, format_size_1572864000, format_size_10485760, format_size_1073741824⟩
  have hiff : (1 ≤ (n : ℚ) / (1024 : ℚ) ^ 3) ↔ (1073741824 : Nat) ≤ n := by
    rw [one_le_div (by norm_num : (0 : ℚ) < 1024 ^ 3)]
    rw [show ((1024 : ℚ) ^ 3) = ((1073741824 : Nat) : ℚ) by norm_num]
    exact_mod_cast Iff.rfl
  unfold format_size
  by_cases h : (1073741824 : Nat) ≤ n
  · rw [if_pos (hiff.mpr h), if_pos h]
  · rw [if_neg (fun hc => h (hiff.mp hc)), if_neg h]

/-- C8. `listRecent` returns only entries under the metrics prefix whose
names end with the tabular-file suffix, sorted by `last_modified` descending
and truncated to at most `limit` entries; the external interface bounds
`limit` to 1–20 (422 outside); over five snapshots with distinct modified
times and limit 3 it returns exactly the 3 most recently modified,
descending. -/
theorem c8_list_recent (listing : List CatalogObject) (limit : Nat) :
    ((get_metrics_files listing limit).all fun e =>
        beginsWith "metrics/".data e.name.data &&
          endsWithChars ".csv".data e.name.data) = true
    ∧ List.Pairwise (fun a b : CatalogEntry => b.last_modified ≤ a.last_modified)
        (get_metrics_files listing limit)
    ∧ (get_metrics_files listing limit).length ≤ limit
    ∧ (∀ l : Nat, list_files listing l =
        if 1 ≤ l ∧ l ≤ 20 then Except.ok (get_metrics_files listing l)
        else Except.error ⟨422, "limit out of range"⟩)
    ∧ get_metrics_files
        [⟨"metrics/2024-01-01_10s.csv", "2024-01-01T00:00:00", 101⟩,
         ⟨"metrics/2024-01-03_11s.csv", "2024-01-03T00:00:00", 103⟩,
         ⟨"metrics/2024-01-02_12s.csv", "2024-01-02T00:00:00", 102⟩,
         ⟨"metrics/2024-01-05_13s.csv", "2024-01-05T00:00:00", 105⟩,
         ⟨"metrics/2024-01-04_14s.csv", "2024-01-04T00:00:00", 104⟩] 3 =
        [⟨"metrics/2024-01-05_13s.csv", "2024-01-05T00:00:00", 105⟩,
         ⟨"metrics/2024-01-04_14s.csv", "2024-01-04T00:00:00", 104⟩,
         ⟨"metrics/2024-01-03_11s.csv", "2024-01-03T00:00:00", 103⟩] := by
  refine ⟨?_, ?_, ?_, fun _ => rfl, by decide⟩
  · rw [List.all_eq_true]
    intro e he
    have he2 := List.take_subset _ _ he
    have he3 := (List.perm_insertionSort modifiedDesc _).mem_iff.mp he2
    obtain ⟨o, ho, rfl⟩ := List.mem_map.mp he3
    exact (List.mem_filter.mp ho).2
  · have hs : List.Pairwise modifiedDesc (get_metrics_files listing limit) :=
      (List.sorted_insertionSort modifiedDesc _).sublist (List.take_sublist _ _)
    refine hs.imp fun {a b} hab => ?_
    rw [String.le_iff_toList_le]
    exact hab
  · rw [get_metrics_files, List.length_take]
    exact min_le_left _ _

theorem parseQuoted_escape (f : List Char) (acc rest : List Char) (d : Char)
    (hd : d ≠ '"') :
    parseQuoted acc (escapeQuotes f ++ '"' :: d :: rest) = (acc.reverse ++ f, d :: rest) := by
  induction f generalizing acc with
  | nil => simp [escapeQuotes, parseQuoted, hd]
  | cons c f ih =>
    by_cases hc : c = '"'
    · subst hc
      rw [show escapeQuotes ('"' :: f) = '"' :: '"' :: escapeQuotes f from by
        rw [escapeQuotes, if_pos rfl]]
      rw [show ('"' :: '"' :: escapeQuotes f) ++ '"' :: d :: rest =
        '"' :: '"' :: (escapeQuotes f ++ '"' :: d :: rest) from rfl]
      rw [show parseQuoted acc ('"' :: '"' :: (escapeQuotes f ++ '"' :: d :: rest)) =
        parseQuoted ('"' :: acc) (escapeQuotes f ++ '"' :: d :: rest) from by
          simp [parseQuoted]]
      rw [ih]
      simp
    · rw [show escapeQuotes (c :: f) = c :: escapeQuotes f from by
        rw [escapeQuotes, if_neg hc]]
      rw [show (c :: escapeQuotes f) ++ '"' :: d :: rest =
        c :: (escapeQuotes f ++ '"' :: d :: rest) from rfl]
      rw [show parseQuoted acc (c :: (escapeQuotes f ++ '"' :: d :: rest)) =
        parseQuoted (c :: acc) (escapeQuotes f ++ '"' :: d :: rest) from by
          rw [parseQuoted.eq_def]
          simp [hc]]
      rw [ih]
      simp

theorem parseUnquoted_append (f : List Char) (acc rest : List Char) (d : Char)
    (hf : ∀ c ∈ f, specialChar c = false)
    (hd : d = ',' ∨ d = '\r') :
    parseUnquoted acc (f ++ d :: rest) = (acc.reverse ++ f, d :: rest) := by
  revert hf
  induction f generalizing acc with
  | nil =>
    intro _
    have hcond : (d = ',' || d = '\r' || d = '\n') = true := by
      rcases hd with h | h <;> simp [h]
    rw [List.nil_append, parseUnquoted.eq_def]
    simp [hcond]
  | cons c f ih =>
    intro hf
    have hc := hf c (List.mem_cons_self _ _)
    have hc1 : ¬(c = ',') := by
      intro h; rw [h] at hc; simp [specialChar] at hc
    have hc2 : ¬(c = '\r') := by
      intro h; rw [h] at hc; simp [specialChar] at hc
    have hc3 : ¬(c = '\n') := by
      intro h; rw [h] at hc; simp [specialChar] at hc
    rw [show (c :: f) ++ d :: rest = c :: (f ++ d :: rest) from rfl]
    rw [show parseUnquoted acc (c :: (f ++ d :: rest)) =
      parseUnquoted (c :: acc) (f ++ d :: rest) from by
        rw [parseUnquoted.eq_def]
        simp [hc1, hc2, hc3]]
    rw [ih _ (fun x hx => hf x (List.mem_cons_of_mem _ hx))]
    simp

theorem parseFieldFrom_quoteField (f rest : List Char) (d : Char)
    (hd : d = ',' ∨ d = '\r') :
    parseFieldFrom (quoteField f ++ d :: rest) = (f, d :: rest) := by
  have hd2 : d ≠ '"' := by
    rcases hd with h | h <;> rw [h] <;> decide
  by_cases hq : needsQuoting f = true
  · rw [quoteField, if_pos hq]
    rw [show ('"' :: (escapeQuotes f ++ ['"'])) ++ d :: rest =
      '"' :: (escapeQuotes f ++ '"' :: d :: rest) from by simp]
    rw [show parseFieldFrom ('"' :: (escapeQuotes f ++ '"' :: d :: rest)) =
      parseQuoted [] (escapeQuotes f ++ '"' :: d :: rest) from by
        simp [parseFieldFrom]]
    rw [parseQuoted_escape f [] rest d hd2]
    simp
  · rw [quoteField, if_neg hq]
    have hf : ∀ c ∈ f, specialChar c = false := by
      intro c hc
      by_cases h : specialChar c = true
      · exact absurd (by unfold needsQuoting; rw [List.any_eq_true]; exact ⟨c, hc, h⟩) hq
      · simpa using h
    cases f with
    | nil =>
      rw [List.nil_append]
      rw [show parseFieldFrom (d :: rest) = parseUnquoted [] (d :: rest) from by
        rw [parseFieldFrom.eq_def]
        simp [hd2]]
      have hcond : (d = ',' || d = '\r' || d = '\n') = true := by
        rcases hd with h | h <;> simp [h]
      rw [parseUnquoted.eq_def]
      simp [hcond]
    | cons c f =>
      have hc := hf c (List.mem_cons_self _ _)
      have hcq : ¬(c = '"') := by
        intro h; rw [h] at hc; simp [specialChar] at hc
      rw [show (c :: f) ++ d :: rest = c :: (f ++ d :: rest) from rfl]
      rw [show parseFieldFrom (c :: (f ++ d :: rest)) =
        parseUnquoted [] (c :: (f ++ d :: rest)) from by
          rw [parseFieldFrom.eq_def]
          simp [hcq]]
      rw [show (c :: (f ++ d :: rest)) = (c :: f) ++ d :: rest from rfl]
      rw [parseUnquoted_append (c :: f) [] rest d hf hd]
      simp

theorem serializeRecord_ne_nil (fs : List (List Char)) : serializeRecord fs ≠ [] := by
  match fs with
  | [] => simp [serializeRecord]
  | [f] => simp [serializeRecord]
  | f :: f2 :: rest => simp [serializeRecord]

theorem length_le_serializeRecord (fs : List (List Char)) :
    fs.length ≤ (serializeRecord fs).length := by
  induction fs with
  | nil => simp [serializeRecord]
  | cons f fs ih =>
    cases fs with
    | nil => simp [serializeRecord]
    | cons f2 rest =>
      rw [show serializeRecord (f :: f2 :: rest) =
        quoteField f ++ ',' :: serializeRecord (f2 :: rest) from rfl]
      simp only [List.length_cons, List.length_append] at ih ⊢
      omega

theorem parseRecordAux_serializeRecord (fs : List (List Char)) :
    ∀ (rest : List Char) (fuel : Nat), fs.length ≤ fuel → fs ≠ [] →
      parseRecordAux fuel (serializeRecord fs ++ rest) = (fs, rest) := by
  induction fs with
  | nil => intro rest fuel _ hne; exact absurd rfl hne
  | cons f fs ih =>
    intro rest fuel hfuel _
    cases fuel with
    | zero => simp at hfuel
    | succ m =>
      cases fs with
      | nil =>
        rw [show serializeRecord [f] ++ rest = quoteField f ++ '\r' :: '\n' :: rest from by
          rw [show serializeRecord [f] = quoteField f ++ ['\r', '\n'] from rfl]
          simp]
        have hpf := parseFieldFrom_quoteField f ('\n' :: rest) '\r' (Or.inr rfl)
        rw [parseRecordAux.eq_def]
        have h1 : ¬(('\r' : Char) = ',') := by decide
        simp [hpf, h1]
      | cons f2 rest2 =>
        rw [show serializeRecord (f :: f2 :: rest2) ++ rest =
          quoteField f ++ ',' :: (serializeRecord (f2 :: rest2) ++ rest) from by
            rw [show serializeRecord (f :: f2 :: rest2) =
              quoteField f ++ ',' :: serializeRecord (f2 :: rest2) from rfl]
            simp]
        have hpf := parseFieldFrom_quoteField f (serializeRecord (f2 :: rest2) ++ rest) ','
          (Or.inl rfl)
        have hih := ih rest m (by simp only [List.length_cons] at hfuel ⊢; omega)
          (by simp)
        rw [parseRecordAux.eq_def]
        simp [hpf, hih]

theorem length_le_serializeRecords (rs : List (List (List Char))) :
    rs.length ≤ (serializeRecords rs).length := by
  induction rs with
  | nil => simp [serializeRecords]
  | cons r rs ih =>
    rw [show serializeRecords (r :: rs) = serializeRecord r ++ serializeRecords rs from rfl]
    have hpos : 0 < (serializeRecord r).length :=
      List.length_pos.mpr (serializeRecord_ne_nil r)
    simp only [List.length_cons, List.length_append]
    omega

theorem parseRecords_serializeRecords (rs : List (List (List Char))) :
    ∀ fuel : Nat, rs.length ≤ fuel → (∀ r ∈ rs, r ≠ []) →
      parseRecords fuel (serializeRecords rs) = rs := by
  induction rs with
  | nil =>
    intro fuel _ _
    cases fuel with
    | zero => rfl
    | succ m => rfl
  | cons r rs ih =>
    intro fuel hfuel hne
    cases fuel with
    | zero => simp at hfuel
    | succ m =>
      obtain ⟨c, cs0, hc⟩ := List.exists_cons_of_ne_nil (serializeRecord_ne_nil r)
      have hback : c :: (cs0 ++ serializeRecords rs) =
          serializeRecord r ++ serializeRecords rs := by
        rw [hc, List.cons_append]
      rw [show serializeRecords (r :: rs) = serializeRecord r ++ serializeRecords rs from rfl]
      rw [hc, List.cons_append]
      have hred : parseRecords (m + 1) (c :: (cs0 ++ serializeRecords rs)) =
          (parseRecordAux ((c :: (cs0 ++ serializeRecords rs)).length + 1)
              (c :: (cs0 ++ serializeRecords rs))).1 ::
            parseRecords m
              (parseRecordAux ((c :: (cs0 ++ serializeRecords rs)).length + 1)
                (c :: (cs0 ++ serializeRecords rs))).2 := rfl
      rw [hred, hback]
      have hrec := parseRecordAux_serializeRecord r (serializeRecords rs)
        ((serializeRecord r ++ serializeRecords rs).length + 1)
        (by
          have h1 := length_le_serializeRecord r
          simp only [List.length_append]
          omega)
        (hne r (List.mem_cons_self _ _))
      rw [hrec]
      have hih := ih m (by simp only [List.length_cons] at hfuel; omega)
        (fun x hx => hne x (List.mem_cons_of_mem _ hx))
      simp [hih]

theorem rowOfFields_rowFields (r : Row) : rowOfFields (rowFields r) = some r := rfl

theorem mapM_rowOfFields (rows : List Row) :
    (rows.map rowFields).mapM rowOfFields = some rows := by
  induction rows with
  | nil => rfl
  | cons r rows ih =>
    rw [List.map_cons, List.mapM_cons, rowOfFields_rowFields, ih]
    rfl

/-- C4. Round trip: serializing any list of snapshot rows to the tabular
format and parsing the content back (the viewer's fetch) reproduces the same
rows in the same order with the identical string value for every field
(path, size_bytes, size_mb, size_gb, size_human) — including fields that
need CSV quoting or quote escaping. -/
theorem c4_csv_round_trip (rows : List Row) : fetchRows (writeCsv rows) = some rows := by
  unfold fetchRows writeCsv
  rw [show (String.mk (serializeRecords
      ((csvFieldnames.map String.data) :: rows.map rowFields))).data =
    serializeRecords ((csvFieldnames.map String.data) :: rows.map rowFields) from rfl]
  have hne : ∀ rec ∈ (csvFieldnames.map String.data) :: rows.map rowFields, rec ≠ [] := by
    intro rec hrec
    rcases List.mem_cons.mp hrec with h | h
    · rw [h]; simp [csvFieldnames]
    · obtain ⟨rr, _, rfl⟩ := List.mem_map.mp h
      simp [rowFields]
  rw [parseRecords_serializeRecords _ _
    (Nat.le_succ_of_le (length_le_serializeRecords _)) hne]
  exact mapM_rowOfFields rows

end MinioMonitor
